import Mathlib

/-!
Verification of the bananadoc documentation extractor (`src/bananadoc/parse.py`
and `src/bananadoc/defaults.py`) against its natural-language specification.

The Python code is shallowly embedded as executable Lean definitions:

* Pure string helpers (`inspect.cleandoc`, `str.partition`, `str.rstrip`,
  `_clean_summary`, ...) are embedded as functions on `String`/`List Char`.
  Character classification (`isupper`, `islower`, `lower`, whitespace) is
  modelled on the ASCII fragment of Unicode, which covers every input the
  claims mention.
* Python objects that the parser can inspect are modelled by the inductive
  `PyValue`; sections (`bananadoc.Section` / `ObjectSection`) by the
  inductive `Sect`.  During the parse phase every `Section` is freshly
  allocated and appended to exactly one `subs` list, so the parse phase is
  faithfully represented by pure state passing over a tree.
* The `add_datasections` module hook mutates sections through shared
  references (the root's `_datasection` attribute), so for the hook the
  finished tree is flattened into an explicit heap (`Heap`, ids = list
  indices) and the hook's generator-based walk is executed as a small-step
  machine over (heap, stack of (section id, index) frames), mirroring how a
  Python `for` loop over a live list object observes in-place appends.
* Exceptions (`NoDocstring`, `AttributeError`, `KeyError`, `assert`) are
  explicit result values; Python's in-place mutations that happen before a
  raise are preserved by returning the mutated state alongside the error.
* Recursion through `ObjectSection.parse_object` / `parse_class` is
  genuinely dynamic in Python, so it is embedded as a single fuel-indexed
  interpreter `parseGo` (structural in the fuel, hence kernel-computable);
  fuel exhaustion is the distinguished result `HRes.fuelOut`, which the
  theorems quantify away.
* Python's `list.sort(key=...)` and `sorted` are stable sorts; any two
  stable sorts agree as functions, so they are embedded with
  `List.insertionSort` (which is stable) over the same key comparison that
  Python uses (lexicographic tuple order, code-point string order).
-/

/-! ## Python string primitives -/

/-- Python whitespace characters stripped by `str.strip` / `str.lstrip`
(ASCII fragment). -/
def pyIsWs (c : Char) : Bool :=
  c = ' ' || c = '\t' || c = '\n' || c = '\r' || c = '\x0b' || c = '\x0c'

/-- `str.lstrip()` with no argument. -/
def pyLStrip (l : List Char) : List Char := l.dropWhile pyIsWs

/-- `str.rstrip(set)`: remove trailing characters belonging to `set`. -/
def pyRStripSet (l : List Char) (set : List Char) : List Char :=
  (l.reverse.dropWhile (fun c => set.contains c)).reverse

/-- Code-point lexicographic `<` on character lists, as Python compares
strings. -/
def charsLt : List Char → List Char → Bool
  | [], [] => false
  | [], _ :: _ => true
  | _ :: _, [] => false
  | c :: cs, d :: ds =>
    if c.toNat < d.toNat then true
    else if d.toNat < c.toNat then false
    else charsLt cs ds

/-- Python string `<=` (code-point lexicographic). -/
def pyStrLe (a b : String) : Bool := !(charsLt b.data a.data)

/-- `s.startswith(c)` for a single character `c`. -/
def strHeadIs (c : Char) (s : String) : Bool := s.data.head? = some c

/-- `str.split('\n')`, always at least one piece (like Python's
`"".split('\n') == ['']`). -/
def splitNl : List Char → List (List Char)
  | [] => [[]]
  | c :: cs =>
    if c = '\n' then [] :: splitNl cs
    else
      match splitNl cs with
      | [] => [[c]]
      | l :: ls => (c :: l) :: ls

/-- `str.expandtabs()` with the default tab size 8: a tab advances the
column to the next multiple of 8, `\n`/`\r` reset the column. -/
def expandTabsAux : List Char → Nat → List Char
  | [], _ => []
  | c :: cs, col =>
    if c = '\t' then
      let k := 8 - col % 8
      List.replicate k ' ' ++ expandTabsAux cs (col + k)
    else if c = '\n' || c = '\r' then c :: expandTabsAux cs 0
    else c :: expandTabsAux cs (col + 1)

def expandTabs (s : String) : String := ⟨expandTabsAux s.data 0⟩

/-- `str.partition(sep)` for a single-character separator: `(before, sep,
after)` at the first occurrence, or `(s, '', '')` if absent. -/
def partChar (sep : Char) : List Char → List Char × List Char × List Char
  | [] => ([], [], [])
  | c :: cs =>
    if c = sep then ([], [sep], cs)
    else
      let r := partChar sep cs
      (c :: r.1, r.2.1, r.2.2)

def pyPartition (s : String) (sep : Char) : String × String × String :=
  let r := partChar sep s.data
  (⟨r.1⟩, ⟨r.2.1⟩, ⟨r.2.2⟩)

/-- `inspect.cleandoc` from the CPython standard library, used by the
parser for every docstring: expand tabs, compute the common indentation
margin of the lines after the first, left-strip the first line, remove the
margin from the remaining lines, drop leading and trailing blank lines. -/
def cleandoc (doc : String) : String :=
  let lines := splitNl (expandTabs doc).data
  let margin : Option Nat := lines.tail.foldl
    (fun m line =>
      let contentLen := (pyLStrip line).length
      if contentLen = 0 then m
      else
        let indent := line.length - contentLen
        match m with
        | none => some indent
        | some mm => some (min mm indent))
    none
  let lines1 :=
    match lines with
    | [] => []
    | first :: rest => pyLStrip first :: rest
  let lines2 :=
    match margin with
    | none => lines1
    | some mg =>
      match lines1 with
      | [] => []
      | first :: rest => first :: rest.map (fun l : List Char => l.drop mg)
  let lines3 := (lines2.reverse.dropWhile List.isEmpty).reverse
  let lines4 := lines3.dropWhile List.isEmpty
  String.intercalate "\n" (lines4.map (fun l => (⟨l⟩ : String)))

/-! ## `_clean_summary` (`parse.py` lines 223-229)

Python's `str.islower()` is true iff the string contains at least one cased
character and no upper-case cased character; `firstword[0]` raises
`IndexError` on an empty first word, modelled by `Option.none`. -/

/-- A cased character (ASCII model: a letter). -/
def isCasedChar (c : Char) : Bool := c.isUpper || c.isLower

/-- Python `str.islower()`. -/
def pyStrIsLower (l : List Char) : Bool :=
  l.any isCasedChar && l.all (fun c => !c.isUpper)

/-- Python `str.lower()` (ASCII model). -/
def lowerStr (s : String) : String := ⟨s.data.map Char.toLower⟩

/-- `_clean_summary(line)`: `none` models the `IndexError` raised by
`firstword[0]` when the line's first word is empty. -/
def clean_summary (line : String) : Option String :=
  let p := pyPartition line ' '
  match p.1.data with
  | [] => none
  | c0 :: restChars =>
    let firstword :=
      if c0.isUpper && pyStrIsLower restChars then lowerStr p.1 else p.1
    some ⟨pyRStripSet (firstword ++ p.2.1 ++ p.2.2).data ['.', '?', '!']⟩

/-! ## Data model: Python values, sections, exceptions -/

/-- `NoDocstring` (`parse.py` lines 39-48): the constructor joins its
positional arguments with `'.'` into `self._problem`. -/
structure NoDocstring where
  problem : String
deriving DecidableEq

/-- `NoDocstring(*parts)`. -/
def noDocstringOf (parts : List String) : NoDocstring :=
  ⟨String.intercalate "." parts⟩

/-- What `parse_class` reads off a base class: its `__name__`,
`__module__`, and whether it is the `object` base. -/
structure PyBase where
  bname : String
  bmodule : String
  isObj : Bool
deriving DecidableEq

/-- A Python runtime value as far as the default parsing functions can
distinguish one: plain functions (`types.FunctionType`) with a docstring
and the text of `inspect.signature`, `property` objects, `classmethod` /
`staticmethod` objects, classes (`type` instances, with docstring, whether
they subclass `Exception`, their bases, an optional `_bananadoc_all`
override list and their `__dict__` in definition order), enum classes
(`enum.EnumMeta` instances, with the member names of `__members__`),
module objects, and arbitrary other data carrying only its `repr`. -/
inductive PyValue : Type where
  | func (doc : Option String) (sig : String)
  | prop (doc : Option String)
  | cmeth
  | smeth
  | cls (doc : Option String) (inheritsExc : Bool) (bases : List PyBase)
      (ball : Option (List String)) (members : List (String × PyValue))
  | enumCls (doc : Option String) (emembers : List String)
  | moduleRef
  | other (reprStr : String)

/-- `isinstance(v, type)`: classes and enum classes (instances of
`enum.EnumMeta`, a subclass of `type`) are types. -/
def PyValue.isTypeVal : PyValue → Bool
  | .cls _ _ _ _ _ => true
  | .enumCls _ _ => true
  | _ => false

/-- `issubclass(v, Exception)` for the values `isTypeVal` accepts (enum
classes are modelled as not deriving from `Exception`). -/
def PyValue.isExcClass : PyValue → Bool
  | .cls _ inheritsExc _ _ _ => inheritsExc
  | _ => false

/-- `repr(v)`.  CPython reprs of functions, classes etc. contain memory
addresses; they are modelled address-free because no claim inspects them.
For plain data (`other`) the repr is carried by the value. -/
def pyRepr : PyValue → String
  | .func _ _ => "<function>"
  | .prop _ => "<property object>"
  | .cmeth => "<classmethod object>"
  | .smeth => "<staticmethod object>"
  | .cls _ _ _ _ _ => "<class>"
  | .enumCls _ _ => "<enum>"
  | .moduleRef => "<module>"
  | .other r => r

/-- An `ObjectSection` (`parse.py` lines 139-164) during the parse phase:
`location`, `name`, `value`, the inherited `Section` fields `title`,
`content`, `subs`, and the lazily created `_datasection` attribute of
`defaults.parse_data`, stored as its list of recorded `(name, value)`
pairs (`DataSection.data`); its `"Other data"` title and rendered content
are derived, see `dataContent`. -/
inductive Sect : Type where
  | mk (location : Option String) (name : String) (value : PyValue)
      (title : Option String) (content : Option String)
      (subs : List Sect) (dsec : Option (List (String × PyValue)))

def Sect.location : Sect → Option String
  | .mk l _ _ _ _ _ _ => l

def Sect.name : Sect → String
  | .mk _ n _ _ _ _ _ => n

def Sect.value : Sect → PyValue
  | .mk _ _ v _ _ _ _ => v

def Sect.title : Sect → Option String
  | .mk _ _ _ t _ _ _ => t

def Sect.content : Sect → Option String
  | .mk _ _ _ _ c _ _ => c

def Sect.subs : Sect → List Sect
  | .mk _ _ _ _ _ s _ => s

def Sect.dsec : Sect → Option (List (String × PyValue))
  | .mk _ _ _ _ _ _ d => d

/-- `ObjectSection.fullname` (`parse.py` lines 166-175). -/
def Sect.fullname (s : Sect) : String :=
  match s.location with
  | none => s.name
  | some l => l ++ "." ++ s.name

/-- `parentsection.subs.append(sub)`. -/
def Sect.appendSub : Sect → Sect → Sect
  | .mk l n v t c subs d, sub => .mk l n v t c (subs ++ [sub]) d

/-- The body of `defaults.parse_data`: fetch `section._datasection`,
creating it on first use (`DataSection()` starts with empty `data`), then
append the `(name, value)` pair to its `data` list. -/
def Sect.recordData : Sect → String → PyValue → Sect
  | .mk l n v t c subs d, nm, val =>
    .mk l n v t c subs (some ((d.getD []) ++ [(nm, val)]))

/-- The outcome of calling one parsing function, together with Python's
convention that in-place mutations performed before a `raise` survive the
exception: the possibly mutated parent section is always returned.
`declined` = returned a falsy value, `handled` = returned `True`,
`raised` = a `NoDocstring` escaped, `crashed` = another exception
(`KeyError` from `cls.__dict__[name]`), `fuelOut` = the embedding's
recursion fuel ran out (never the Python program). -/
inductive HRes : Type where
  | declined
  | handled
  | raised (e : NoDocstring)
  | crashed
  | fuelOut
deriving DecidableEq

/-! ## The default parsing functions (`defaults.py`) -/

/-- `defaults.parse_data` (lines 68-75): the catch-all; records the pair on
the parent's lazily created data section and reports success. -/
def parse_data (sect : Sect) (name : String) (value : PyValue) :
    Sect × HRes :=
  (sect.recordData name value, .handled)

/-- `defaults.parse_function` (lines 89-102). -/
def parse_function (parentsect : Sect) (name : String) (value : PyValue) :
    Sect × HRes :=
  match value with
  | .func doc sig =>
    match doc with
    | none => (parentsect, .raised (noDocstringOf [parentsect.fullname, name]))
    | some d =>
      (parentsect.appendSub
        (.mk (some parentsect.fullname) name value
          (some (name ++ sig)) (some (cleandoc d)) [] none), .handled)
  | _ => (parentsect, .declined)

/-- `defaults.parse_property` (lines 105-121): declines unless the value is
a `property` and the parent section's value is a class. -/
def parse_property (parentsect : Sect) (name : String) (value : PyValue) :
    Sect × HRes :=
  match value with
  | .prop doc =>
    if !parentsect.value.isTypeVal then (parentsect, .declined)
    else
      match doc with
      | none => (parentsect, .raised (noDocstringOf [parentsect.fullname, name]))
      | some d =>
        (parentsect.appendSub
          (.mk (some parentsect.fullname) name value
            (some ("The " ++ name ++ " property")) (some (cleandoc d)) []
            none), .handled)
  | _ => (parentsect, .declined)

/-- `defaults.parse_enum` (lines 199-211, with the `enum` module present). -/
def parse_enum (parentsect : Sect) (name : String) (value : PyValue) :
    Sect × HRes :=
  match value with
  | .enumCls doc _ =>
    match doc with
    | none => (parentsect, .raised (noDocstringOf [parentsect.fullname, name]))
    | some d =>
      (parentsect.appendSub
        (.mk (some parentsect.fullname) name value
          (some ("enum " ++ name)) (some (cleandoc d)) [] none), .handled)
  | _ => (parentsect, .declined)

/-- The base-class display list of `defaults.parse_class` (lines 157-165):
skip `object` and underscore-prefixed names, print the bare name for bases
from the parent's namespace or `builtins`, otherwise qualify with the
defining module. -/
def classBases (parentFullname : String) (bases : List PyBase) :
    List String :=
  bases.filterMap (fun b =>
    if b.isObj || strHeadIs '_' b.bname then none
    else if b.bmodule = parentFullname || b.bmodule = "builtins" then
      some b.bname
    else some (b.bmodule ++ "." ++ b.bname))

/-- `displayname` of `defaults.parse_class` (lines 166-168). -/
def displayName (classname : String) (bases : List String) : String :=
  if bases = [] then classname
  else classname ++ "(" ++ String.intercalate ", " bases ++ ")"

/-- `cls.__dict__[name]` (first binding wins; class dict keys are unique). -/
def lookupMem : List (String × PyValue) → String → Option PyValue
  | [], _ => none
  | (k, v) :: rest, n => if k = n then some v else lookupMem rest n

/-- `_class_sorting_key(cls, name)` (`defaults.py` lines 124-143) as the
source text reads: the value is classified as method / classmethod /
staticmethod / property / other data.  (CPython's `getattr` would run the
descriptor protocol first; that refinement is irrelevant to every claim
and is not modelled.) -/
def _class_sorting_key (members : List (String × PyValue)) (name : String) :
    Nat × String :=
  match lookupMem members name with
  | some (.func _ _) => (1, name)
  | some .cmeth => (2, name)
  | some .smeth => (3, name)
  | some (.prop _) => (4, name)
  | _ => (5, name)

/-- Python tuple comparison `(n₁, s₁) <= (n₂, s₂)`: lexicographic. -/
def keyLeB (a b : Nat × String) : Bool :=
  a.1.blt b.1 || (a.1 == b.1 && pyStrLe a.2 b.2)

/-- The member-name list `parse_class` iterates (lines 176-183): the
`_bananadoc_all` override verbatim if present, else the `__dict__` keys
that are `'__init__'` or not underscore-prefixed, stably sorted by
`_class_sorting_key`. -/
def classMemberNames (members : List (String × PyValue))
    (ball : Option (List String)) : List String :=
  match ball with
  | some l => l
  | none =>
    List.insertionSort
      (fun a b =>
        keyLeB (_class_sorting_key members a) (_class_sorting_key members b)
          = true)
      ((members.map Prod.fst).filter
        (fun n => n = "__init__" || !(strHeadIs '_' n)))

/-! ## `ObjectSection.parse_object` and `defaults.parse_class`

`parse_object` (`parse.py` lines 177-187) tries the registered parsing
functions newest-first: with the default registry
`[parse_data, parse_function, parse_property, parse_class, parse_enum]`
(registration order in `defaults.py`) the reversed try order is
enum, class, property, function, data.  `parse_class` recurses back into
`parse_object` for the class's members, so the two are embedded as one
interpreter `parseGo` that is structural in a fuel counter; running out of
fuel yields `HRes.fuelOut`, which never happens for the Python program
(every claim theorem quantifies over sufficient fuel). -/

/-- A pending call of the mutually recursive Python functions. -/
inductive PCall : Type where
  | pobj (parentsect : Sect) (name : String) (value : PyValue)
  | pcls (parentsect : Sect) (classname : String) (value : PyValue)
  | pnames (classSect : Sect) (members : List (String × PyValue))
      (names : List String)

def PCall.stateOf : PCall → Sect
  | .pobj p _ _ => p
  | .pcls p _ _ => p
  | .pnames s _ _ => s

/-- One step of the `for parsingfunc in reversed(_parsingfuncs)` loop: if
the result of the handler just tried is falsy (`declined`), try the next
one (`k`) on the possibly mutated parent; any other outcome — handled,
raised, crashed — ends the loop. -/
def tryNext (r : Sect × HRes) (k : Sect → Sect × HRes) : Sect × HRes :=
  match r with
  | (p1, .declined) => k p1
  | r => r

/-- The interpreter: `pobj` is `ObjectSection.parse_object`, `pcls` is
`defaults.parse_class` (lines 146-196), `pnames` is `parse_class`'s member
loop (lines 184-194) with its `NoDocstring`-on-`__init__` suppression. -/
def parseGo : Nat → PCall → Sect × HRes
  | 0, c => (c.stateOf, .fuelOut)
  | fuel + 1, .pobj p n v =>
    tryNext (parse_enum p n v) (fun p1 =>
      tryNext (parseGo fuel (.pcls p1 n v)) (fun p2 =>
        tryNext (parse_property p2 n v) (fun p3 =>
          tryNext (parse_function p3 n v) (fun p4 =>
            parse_data p4 n v))))
  | fuel + 1, .pcls p classname v =>
    match v with
    | .cls doc _ bases ball members =>
      match doc with
      | none => (p, .raised (noDocstringOf [p.fullname, classname]))
      | some d =>
        let cs0 : Sect :=
          .mk (some p.fullname) classname v
            (some ("class " ++ displayName classname
              (classBases p.fullname bases)))
            (some (cleandoc d)) [] none
        let r := parseGo fuel (.pnames cs0 members (classMemberNames members ball))
        (p.appendSub r.1, r.2)
    | _ => (p, .declined)
  | fuel + 1, .pnames cs members names =>
    match names with
    | [] => (cs, .handled)
    | name :: rest =>
      match lookupMem members name with
      | none => (cs, .crashed)
      | some v =>
        match parseGo fuel (.pobj cs name v) with
        | (cs2, .handled) => parseGo fuel (.pnames cs2 members rest)
        | (cs2, .raised e) =>
          if name = "__init__" then parseGo fuel (.pnames cs2 members rest)
          else (cs2, .raised e)
        | (cs2, r) => (cs2, r)

/-- `ObjectSection.parse_object(name, obj)` with the default registry. -/
def parse_object (fuel : Nat) (p : Sect) (name : String) (value : PyValue) :
    Sect × HRes :=
  parseGo fuel (.pobj p name value)

/-- `defaults.parse_class(parentsect, classname, cls)`. -/
def parse_class (fuel : Nat) (p : Sect) (classname : String)
    (value : PyValue) : Sect × HRes :=
  parseGo fuel (.pcls p classname value)

/-! ## The generic dispatch loop (for the registry claims)

`parse_object` iterates `reversed(_parsingfuncs)` and stops at the first
truthy result; if no parsing function claims the value the trailing
`assert False` fires.  The loop is embedded generically over an arbitrary
registry so that registration-order facts can be stated; `none` in the
result models the `assert False` branch (an internal fatal error distinct
from every normal outcome). -/

def Handler : Type := Sect → String → PyValue → Sect × HRes

/-- One pass of the `for parsingfunc in funcs: if parsingfunc(...)` loop
over an already-reversed registry. -/
def dispatchList : List Handler → Sect → String → PyValue →
    Sect × Option HRes
  | [], p, _, _ => (p, none)
  | h :: rest, p, n, v =>
    match h p n v with
    | (p1, .declined) => dispatchList rest p1 n v
    | (p1, r) => (p1, some r)

/-- The default registry in registration order (`defaults.py` top to
bottom, `enum` present): `parse_class` needs fuel for its recursion. -/
def defaultFuncs (fuel : Nat) : List Handler :=
  [parse_data, parse_function, parse_property,
   fun p n v => parseGo fuel (.pcls p n v), parse_enum]

/-! ## The heap model for the `add_datasections` hook

`defaults.add_datasections` (lines 80-86) mutates sections through shared
references while iterating the live generator `section.walk_subs()`
(`parse.py` lines 120-127), so the finished parse tree is flattened into
an explicit heap.  `DataSection` (`defaults.py` lines 48-65) becomes a
heap node with title `"Other data"` and the content its property computes. -/

/-- `DataSection.content` (lines 54-60): a fenced block with one
``name = `repr` `` line per recorded pair. -/
def dataContent (data : List (String × PyValue)) : String :=
  String.intercalate "\n"
    ("```" :: (data.map (fun p => p.1 ++ " = `" ++ pyRepr p.2 ++ "`") ++ ["```"]))

/-- A `Section` object on the heap: only the fields the hook and `dump`
touch. -/
structure Node where
  title : Option String
  content : Option String
  subs : List Nat
deriving DecidableEq

abbrev Heap := List Node

/-- Dereference a section id (out-of-range reads, which never happen on
the heaps `flatSect` builds, give an inert empty node). -/
def getNode : Heap → Nat → Node
  | [], _ => ⟨none, none, []⟩
  | nd :: _, 0 => nd
  | _ :: rest, i + 1 => getNode rest i

/-- `sub.subs.append(d)` on the heap. -/
def appendChildAt : Heap → Nat → Nat → Heap
  | [], _, _ => []
  | nd :: rest, 0, d => { nd with subs := nd.subs ++ [d] } :: rest
  | nd :: rest, i + 1, d => nd :: appendChildAt rest i d

mutual
/-- Flatten the parse tree into a heap, allocating ids left to right,
children before their parent, a section's `DataSection` (if any) just
before the section itself.  Returns the extended heap, the section's id
and its `DataSection`'s id. -/
def flatSect : Sect → Heap → Heap × Nat × Option Nat
  | .mk _ _ _ t c subs ds, h =>
    let hc := flatList subs h
    match ds with
    | none => (hc.1 ++ [⟨t, c, hc.2⟩], hc.1.length, none)
    | some data =>
      let h2 := hc.1 ++ [⟨some "Other data", some (dataContent data), []⟩]
      (h2 ++ [⟨t, c, hc.2⟩], h2.length, some hc.1.length)
def flatList : List Sect → Heap → Heap × List Nat
  | [], h => (h, [])
  | s :: rest, h =>
    let r1 := flatSect s h
    let r2 := flatList rest r1.1
    (r2.1, r1.2.1 :: r2.2)
end

/-- The `for sub in section.walk_subs():` loop of `add_datasections`,
executed as a small-step machine.  A frame `(sid, i)` is a suspended
`for sub in self.subs` loop of `walk_subs` positioned before index `i` of
section `sid`'s live `subs` list (re-read every step, so in-place appends
are observed, exactly like Python's list iterator).  On each yielded
section the loop body runs: `sub.subs.append(section._datasection)` if the
root has a `_datasection` (`dsec = some d`), else the `AttributeError` is
swallowed.  `Sum.inl` = fuel exhausted at the returned machine state
(the Python loop is still running), `Sum.inr` = the loop finished. -/
def hookRun (dsec : Option Nat) :
    Nat → Heap → List (Nat × Nat) → (Heap × List (Nat × Nat)) ⊕ Heap
  | 0, heap, stack => .inl (heap, stack)
  | _ + 1, heap, [] => .inr heap
  | fuel + 1, heap, (sid, i) :: rest =>
    let subs := (getNode heap sid).subs
    if h : i < subs.length then
      let child := subs[i]
      let heap2 :=
        match dsec with
        | none => heap
        | some d => appendChildAt heap child d
      hookRun dsec fuel heap2 ((child, 0) :: (sid, i + 1) :: rest)
    else hookRun dsec fuel heap rest

/-! ## `parse_module` (`parse.py` lines 242-298) -/

/-- A module object as `parse_module` inspects it: docstring, whether it
has `__path__` (package), optional `__all__`, the module `__dict__` in
insertion order (dunder entries omitted — they are underscore-prefixed and
filtered out anyway), the directory listing of a package's `__path__`
entry, and the names for which `importlib.import_module(mod + '.' + name)`
succeeds. -/
structure PyModule where
  doc : Option String
  isPackage : Bool
  allList : Option (List String)
  attrs : List (String × PyValue)
  dirFiles : List String
  importableSubs : List String

/-- `os.path.splitext` (no directory separators in the inputs here): split
at the last dot unless every character before it is a dot. -/
def splitExt (p : List Char) : List Char × List Char :=
  match (p.reverse.findIdx? (· = '.')) with
  | none => (p, [])
  | some ri =>
    let i := p.length - 1 - ri
    if i = 0 then (p, [])
    else if (p.take i).all (· = '.') then (p, [])
    else (p.take i, p.drop i)

/-- Python `str.isidentifier()` (ASCII model). -/
def pyIsIdentifier (s : String) : Bool :=
  match s.data with
  | [] => false
  | c :: rest =>
    (c.isAlpha || c = '_') && rest.all (fun d => d.isAlpha || d.isDigit || d = '_')

/-- The sibling source files `_import_submodules` (`parse.py` lines
232-239) imports: `.py` extension, valid identifier, not underscore
prefixed. -/
def siblingNames (m : PyModule) : List String :=
  m.dirFiles.filterMap (fun f =>
    let se := splitExt f.data
    if se.2 = ".py".data && pyIsIdentifier ⟨se.1⟩ && !(strHeadIs '_' ⟨se.1⟩)
    then some (⟨se.1⟩ : String) else none)

/-- The import system's `setattr(package, name, module)`. -/
def setAttr (attrs : List (String × PyValue)) (n : String) (v : PyValue) :
    List (String × PyValue) :=
  if (attrs.map Prod.fst).contains n then
    attrs.map (fun p => if p.1 = n then (n, v) else p)
  else attrs ++ [(n, v)]

/-- The module namespace after `_import_submodules` ran (it only runs for
a package without `__all__`): every public sibling source file is bound to
a module object. -/
def moduleNamespace (m : PyModule) : List (String × PyValue) :=
  match m.allList with
  | some _ => m.attrs
  | none =>
    if m.isPackage then
      (siblingNames m).foldl (fun a n => setAttr a n .moduleRef) m.attrs
    else m.attrs

/-- `dir(module)`: the sorted namespace names. -/
def pyDir (ns : List (String × PyValue)) : List String :=
  List.insertionSort (fun a b => pyStrLe a b = true) (ns.map Prod.fst).dedup

/-- `_module_sorting_key(module, name)` (`parse.py` lines 204-220):
classes 1, functions 2, exception classes 3, other data 4; `getattr` on a
`dir()`-produced name always succeeds, the `none` branch is unreachable. -/
def _module_sorting_key (ns : List (String × PyValue)) (name : String) :
    Nat × String :=
  match lookupMem ns name with
  | none => (4, name)
  | some v =>
    if v.isTypeVal then
      if v.isExcClass then (3, name) else (1, name)
    else
      match v with
      | .func _ _ => (2, name)
      | _ => (4, name)

/-- The `all_list` computation of `parse_module` (lines 256-269): the
module's `__all__` verbatim, else the non-underscore `dir()` names (after
importing a package's sibling submodules) stably sorted by
`_module_sorting_key`. -/
def computeAllList (m : PyModule) : List String :=
  match m.allList with
  | some l => l
  | none =>
    let ns := moduleNamespace m
    List.insertionSort
      (fun a b =>
        keyLeB (_module_sorting_key ns a) (_module_sorting_key ns b) = true)
      ((pyDir ns).filter (fun n => !(strHeadIs '_' n)))

/-- How a run of `parse_module` can fail: a `NoDocstring` propagating out,
an `AttributeError` from `getattr`, a `KeyError` from `cls.__dict__[name]`,
the `assert False` in `parse_object`, the `IndexError` of
`_clean_summary`, or the embedding's fuel bound (covering the hook's
divergence, see `hookRun`). -/
inductive PRunErr : Type where
  | noDoc (e : NoDocstring)
  | attrError
  | keyError
  | assertFail
  | indexError
  | fuelOut
deriving DecidableEq

structure PMOut where
  heap : Heap
  root : Nat
  submodules : List String
deriving DecidableEq

/-- The member loop of `parse_module` (lines 281-293): package submodules
are recorded and skipped, everything else is dispatched against the main
section. -/
def processNames (fuel : Nat) (m : PyModule) (modulename : String) :
    Sect → List String → List String → Except PRunErr (Sect × List String)
  | sect, submods, [] => .ok (sect, submods)
  | sect, submods, name :: rest =>
    if m.isPackage && m.importableSubs.contains name then
      processNames fuel m modulename sect
        (submods ++ [modulename ++ "." ++ name]) rest
    else
      match lookupMem (moduleNamespace m) name with
      | none => .error .attrError
      | some v =>
        match parse_object fuel sect name v with
        | (s2, .handled) => processNames fuel m modulename s2 submods rest
        | (_, .raised e) => .error (.noDoc e)
        | (_, .crashed) => .error .keyError
        | (_, .declined) => .error .assertFail
        | (_, .fuelOut) => .error .fuelOut

/-- The title computation of `parse_module` (lines 271-276): the module
name, extended with `" - "` and the cleaned summary when the first line of
the cleaned docstring is non-empty (`clean_summary`'s `IndexError`
propagates). -/
def moduleTitle (modulename mdoc : String) : Except PRunErr String :=
  if (pyPartition (cleandoc mdoc) '\n').1 = "" then .ok modulename
  else
    match clean_summary (pyPartition (cleandoc mdoc) '\n').1 with
    | none => .error .indexError
    | some cs => .ok (modulename ++ " - " ++ cs)

/-- `parse_module(modulename)` (lines 242-298): import (given as `m`),
fail on a missing module docstring, compute the name list, build the title
from the cleaned summary line, build the root `ObjectSection` (content =
the docstring after its first line), dispatch every member, then run the
registered module hooks — with the default registry that is exactly
`add_datasections` — and return the result (as the flattened heap plus
root id) together with the skipped submodule names. -/
def parse_module (fuel : Nat) (modulename : String) (m : PyModule) :
    Except PRunErr PMOut :=
  match m.doc with
  | none => .error (.noDoc (noDocstringOf [modulename]))
  | some mdoc =>
    match moduleTitle modulename mdoc with
    | .error e => .error e
    | .ok title =>
      match processNames fuel m modulename
          (.mk none modulename .moduleRef (some title)
            (some (pyPartition (cleandoc mdoc) '\n').2.2) [] none)
          [] (computeAllList m) with
      | .error e => .error e
      | .ok (sect, submods) =>
        match hookRun (flatSect sect []).2.2 fuel (flatSect sect []).1
            [((flatSect sect []).2.1, 0)] with
        | .inl _ => .error .fuelOut
        | .inr heap2 => .ok ⟨heap2, (flatSect sect []).2.1, submods⟩

/-! ## `Section.dump` and `Section.walk_subs` (`parse.py` lines 120-136) -/

def hashMarks (n : Nat) : String := ⟨List.replicate n '#'⟩

/-- `self.content.strip('\n')`. -/
def stripNl (c : String) : String :=
  ⟨((c.data.dropWhile (· = '\n')).reverse.dropWhile (· = '\n')).reverse⟩

mutual
/-- `Section.dump(stream, titlelevel)`: the pair is (text written to the
stream, whether an `assert` fired).  Output written before a failing
assertion in a child is preserved, as with a real stream. -/
def dumpSect : Sect → Nat → String × Bool
  | .mk _ _ _ title content subs _, titlelevel =>
    match title, content with
    | some t, some c =>
      let r := dumpList subs (titlelevel + 1)
      (hashMarks titlelevel ++ " " ++ t ++ "\n\n" ++ stripNl c ++ "\n\n"
        ++ r.1, r.2)
    | _, _ => ("", true)
def dumpList : List Sect → Nat → String × Bool
  | [], _ => ("", false)
  | s :: rest, lvl =>
    let r1 := dumpSect s lvl
    if r1.2 then (r1.1, true)
    else
      let r2 := dumpList rest lvl
      (r1.1 ++ r2.1, r2.2)
end

mutual
/-- The depth-first pre-order listing of a section tree with the heading
level each node gets: node at depth `d` below the start is listed with
level `lvl + d`.  Used to state that `dump`'s Markdown heading depth
equals tree depth. -/
def preorder : Sect → Nat → List (Nat × String × String)
  | .mk _ _ _ t c subs _, lvl =>
    (lvl, t.getD "", c.getD "") :: preorderList subs (lvl + 1)
def preorderList : List Sect → Nat → List (Nat × String × String)
  | [], _ => []
  | s :: rest, lvl => preorder s lvl ++ preorderList rest lvl
end

mutual
/-- Every section of the tree has both `title` and `content` set — the
property `dump`'s assertions check. -/
def SectTitled : Sect → Prop
  | .mk _ _ _ t c subs _ => t.isSome ∧ c.isSome ∧ SectsTitled subs
def SectsTitled : List Sect → Prop
  | [] => True
  | s :: rest => SectTitled s ∧ SectsTitled rest
end

/-! ## Claims C1 and C2: the `add_datasections` hook

Both claims fail on the code.  `add_datasections` reads
`section._datasection` — the ROOT's data section — inside the loop over
`section.walk_subs()` and appends it to each yielded descendant:

* it never appends anything to the root's own `subs`, so when the root has
  recorded data but no subsections the "Other data" section is silently
  dropped (claim C1);
* when the root has recorded data and at least one subsection, the root's
  data section is appended to every walked section including, eventually,
  itself, creating sharing and a self-cycle, and the walk then recurses
  into the ever-growing data section forever (claim C2). -/

/-- A module with a docstring whose only public member is plain data
`x = 1`. -/
def moduleC1 : PyModule :=
  ⟨some "Doc.", false, none, [("x", PyValue.other "1")], [], []⟩

/-- A module with a documented function `f` and plain data `x = 1`. -/
def moduleC2 : PyModule :=
  ⟨some "Doc.", false, none,
   [("f", PyValue.func (some "Doc f.") "()"), ("x", PyValue.other "1")],
   [], []⟩

/-- The heap `parse_module` hands to the hook for `moduleC2`: id 0 the
section of `f`, id 1 the root's `DataSection`, id 2 the root. -/
def heapC2 : Heap :=
  [⟨some "f()", some "Doc f.", []⟩,
   ⟨some "Other data", some "```\nx = `1`\n```", []⟩,
   ⟨some "m - doc", some "", [0]⟩]

theorem getNode_appendChildAt_self :
    ∀ (h : Heap) (i x : Nat), i < h.length →
      getNode (appendChildAt h i x) i =
        { getNode h i with subs := (getNode h i).subs ++ [x] } := by
  intro h
  induction h with
  | nil => intro i x hi; simp at hi
  | cons nd rest ih =>
    intro i x hi
    cases i with
    | zero => rfl
    | succ j =>
      have hj : j < rest.length := by simpa using hi
      simpa [appendChildAt, getNode] using ih j x hj

theorem length_appendChildAt :
    ∀ (h : Heap) (i x : Nat), (appendChildAt h i x).length = h.length := by
  intro h
  induction h with
  | nil => intro i x; rfl
  | cons nd rest ih =>
    intro i x
    cases i with
    | zero => rfl
    | succ j => simpa [appendChildAt] using ih j x

/-- Once the walk's innermost frame sits at position 0 of a data section
that already contains itself, every further step appends the data section
to itself again and descends into it: the loop never terminates, whatever
the fuel. -/
theorem getNode_of_out_of_range :
    ∀ (h : Heap) (i : Nat), h.length ≤ i → getNode h i = ⟨none, none, []⟩ := by
  intro h
  induction h with
  | nil => intro i _; rfl
  | cons nd rest ih =>
    intro i hi
    cases i with
    | zero => simp at hi
    | succ j =>
      have : rest.length ≤ j := by simpa using hi
      simpa [getNode] using ih j this

theorem hookRun_self_loop (d : Nat) :
    ∀ (fuel : Nat) (heap : Heap) (rest : List (Nat × Nat)),
      (getNode heap d).subs.head? = some d →
      ∃ st, hookRun (some d) fuel heap ((d, 0) :: rest) = .inl st := by
  intro fuel
  induction fuel with
  | zero =>
    intro heap rest _
    exact ⟨_, rfl⟩
  | succ f ih =>
    intro heap rest hhd
    obtain ⟨t, hsubs⟩ : ∃ t, (getNode heap d).subs = d :: t := by
      cases hs : (getNode heap d).subs with
      | nil => rw [hs] at hhd; simp at hhd
      | cons a t =>
        rw [hs] at hhd
        simp at hhd
        exact ⟨t, by rw [hhd]⟩
    have hd_lt : d < heap.length := by
      by_contra hge
      push_neg at hge
      rw [getNode_of_out_of_range heap d hge] at hsubs
      simp at hsubs
    have hstep :
        hookRun (some d) (f + 1) heap ((d, 0) :: rest) =
          hookRun (some d) f (appendChildAt heap d d)
            ((d, 0) :: (d, 1) :: rest) := by
      simp [hookRun, hsubs]
    rw [hstep]
    apply ih
    rw [getNode_appendChildAt_self heap d d hd_lt, hsubs]
    simp

/-- Claim C1 (code bug, witnessed): on `moduleC1` the catch-all data
handler records `("x", 1)` on the root section, the module hooks run, and
`parse_module` returns — but the returned tree's root (id 1) has an empty
`subs` list: the "Other data" aggregate (id 0, carrying the recorded pair)
was never attached to the parent it belongs to, let alone as its last
element. -/
theorem C1_other_data_never_attached :
    parse_module 5 "m" moduleC1 =
      .ok ⟨[⟨some "Other data", some "```\nx = `1`\n```", []⟩,
            ⟨some "m - doc", some "", []⟩], 1, []⟩ := rfl

/-- Claim C2 (code bug, witnessed): on `moduleC2` the tree invariant is
destroyed and `parse_module` never returns.  First conjunct: for every
fuel bound the embedded run ends in fuel exhaustion — the hook's walk is
endless (a `RecursionError` in CPython).  Second conjunct: after exactly
two iterations of the hook's loop the root's `DataSection` (id 1) has been
appended both to the section of `f` (id 0) and to itself, so a section
occurs in the `subs` of two different sections and is its own descendant. -/
theorem C2_hook_creates_cycle_and_diverges :
    (∀ fuel, parse_module fuel "m" moduleC2 = .error .fuelOut) ∧
      hookRun (some 1) 2 heapC2 [(2, 0)] =
        .inl ([⟨some "f()", some "Doc f.", [1]⟩,
               ⟨some "Other data", some "```\nx = `1`\n```", [1]⟩,
               ⟨some "m - doc", some "", [0]⟩],
              [(1, 0), (0, 1), (2, 1)]) := by
  constructor
  · intro fuel
    match fuel with
    | 0 => rfl
    | 1 => rfl
    | (f + 2) =>
      have hphase :
          parse_module (f + 2) "m" moduleC2 =
            (match hookRun (some 1) (f + 2) heapC2 [(2, 0)] with
             | .inl _ => .error .fuelOut
             | .inr heap2 => .ok ⟨heap2, 2, []⟩) := rfl
      rw [hphase]
      have hsteps :
          hookRun (some 1) (f + 2) heapC2 [(2, 0)] =
            hookRun (some 1) f
              [⟨some "f()", some "Doc f.", [1]⟩,
               ⟨some "Other data", some "```\nx = `1`\n```", [1]⟩,
               ⟨some "m - doc", some "", [0]⟩]
              [(1, 0), (0, 1), (2, 1)] := by
        simp [hookRun, heapC2, getNode, appendChildAt]
      rw [hsteps]
      obtain ⟨st, hst⟩ :=
        hookRun_self_loop 1 f
          [⟨some "f()", some "Doc f.", [1]⟩,
           ⟨some "Other data", some "```\nx = `1`\n```", [1]⟩,
           ⟨some "m - doc", some "", [0]⟩]
          [(0, 1), (2, 1)] rfl
      rw [hst]
  · rfl

/-! ## Claim C3: the enumeration handler

The claim says an undocumented enumeration gets a synthesized bullet list
of its members.  The code (`defaults.parse_enum`, lines 199-211) instead
raises `NoDocstring` — the bullet synthesis only exists in the legacy
single-file `bananadoc.py`, not in the package the claim cites. -/

/-- A parent section whose `fullname` is `"m"`. -/
def sectM : Sect := .mk none "m" .moduleRef (some "m - doc") (some "") [] none

/-- Counterexample to claim C3: dispatching the undocumented enumeration
`Color` (one member `RED`) produces no section at all — the parent is
returned unchanged, with empty `subs` — and raises `NoDocstring('m',
'Color')`; the claim requires a section titled `"enum Color"` whose
content lists the member `RED` as a bullet. -/
theorem C3_undocumented_enum_raises :
    parse_object 5 sectM "Color" (.enumCls none ["RED"]) =
      (sectM, .raised ⟨"m.Color"⟩) := rfl

/-- Claim C3 as amended: for every value matched by the enumeration
handler, if the enumeration class has a docstring the produced section is
appended to the parent with title `"enum <name>"` and the cleaned
docstring, verbatim, as content; if it has no docstring the handler raises
`NoDocstring` naming the enum's dotted path and produces no section. -/
theorem C3_enum_title_and_content (fuel : Nat) (p : Sect) (n : String)
    (d : String) (emembers : List String) :
    parse_object (fuel + 1) p n (.enumCls (some d) emembers) =
      (p.appendSub
        (.mk (some p.fullname) n (.enumCls (some d) emembers)
          (some ("enum " ++ n)) (some (cleandoc d)) [] none), .handled) ∧
    parse_object (fuel + 1) p n (.enumCls none emembers) =
      (p, .raised (noDocstringOf [p.fullname, n])) := by
  constructor
  · rfl
  · rfl

/-! ## Claim C8: `_clean_summary`

The claim's lowercasing condition — "the first word is capitalized with
all of its other letters lowercase" — is vacuously satisfied by a
single-letter first word like `"A"`, but the code tests
`firstword[1:].islower()`, and Python's `islower` is `False` for a string
with no cased characters.  So `"A cat."` is a counterexample.  The code's
actual condition additionally requires at least one cased character after
the first; the claim is otherwise right (examples included), on every line
whose first word is non-empty (a line starting with a space makes
`firstword[0]` raise `IndexError`). -/

/-- The lowercasing condition exactly as the claim states it: first
character upper-case, every other letter of the first word lower-case
(vacuously true when there are none). -/
def claimLowerCond : List Char → Bool
  | [] => false
  | c :: rest => c.isUpper && rest.all (fun ch => !(isCasedChar ch) || ch.isLower)

/-- `_clean_summary` as the claim describes it. -/
def claimCleanSummary (line : String) : String :=
  let p := pyPartition line ' '
  let firstword := if claimLowerCond p.1.data then lowerStr p.1 else p.1
  ⟨pyRStripSet (firstword ++ p.2.1 ++ p.2.2).data ['.', '?', '!']⟩

/-- The code's lowercasing condition: `firstword[0].isupper() and
firstword[1:].islower()` (so the remainder must contain a cased
character). -/
def codeLowerCond : List Char → Bool
  | [] => false
  | c :: rest => c.isUpper && pyStrIsLower rest

/-- `_clean_summary` as amended: same shape, Python's `islower` condition. -/
def amendedCleanSummary (line : String) : String :=
  let p := pyPartition line ' '
  let firstword := if codeLowerCond p.1.data then lowerStr p.1 else p.1
  ⟨pyRStripSet (firstword ++ p.2.1 ++ p.2.2).data ['.', '?', '!']⟩

/-- Counterexample to claim C8: for the summary line `"A cat."` the first
word `"A"` is capitalized and all zero of its other letters are lowercase,
so the claim demands `"a cat"`; the code leaves the word alone and returns
`"A cat"`. -/
theorem C8_single_letter_word_not_lowered :
    clean_summary "A cat." = some "A cat" ∧
      claimCleanSummary "A cat." = "a cat" ∧
      ("A cat" : String) ≠ "a cat" := by
  refine ⟨rfl, rfl, ?_⟩
  decide

/-- Claim C8 as amended: on every non-empty summary line that does not
start with a space (so the first word is non-empty and `firstword[0]`
cannot raise), cleaning lowercases the first word if and only if its first
character is upper-case and the rest of the word is `islower()` in
Python's sense — it contains a cased character and no upper-case one — and
then strips all trailing `.`, `?`, `!`; in particular the claim's two
examples hold. -/
theorem C8_clean_summary_amended :
    (∀ line : String, line ≠ "" → ¬ strHeadIs ' ' line →
      clean_summary line = some (amendedCleanSummary line)) ∧
    clean_summary "Print hello world." = some "print hello world" ∧
    clean_summary "HTTP servers are fun!" = some "HTTP servers are fun" := by
  refine ⟨?_, rfl, rfl⟩
  intro line hne hsp
  obtain ⟨c, cs, hdata⟩ : ∃ c cs, line.data = c :: cs := by
    cases hd : line.data with
    | nil =>
      exact absurd (by cases line with | mk l => cases hd; rfl) hne
    | cons c cs => exact ⟨c, cs, rfl⟩
  have hc : c ≠ ' ' := by
    intro hceq
    apply hsp
    simp [strHeadIs, hdata, hceq]
  unfold clean_summary amendedCleanSummary codeLowerCond
  simp only [pyPartition, hdata, partChar, if_neg hc]

theorem C8_clean_summary_amended_witness :
    clean_summary "Print hello world." =
      some (amendedCleanSummary "Print hello world.") :=
  C8_clean_summary_amended.1 "Print hello world." (by decide) (by decide)

/-! ## Claim C4: missing docstrings inside a class -/

theorem intercalate_dot_two (a b : String) :
    String.intercalate "." [a, b] = a ++ "." ++ b := by
  simp [String.intercalate, List.intercalate, String.join, List.intersperse]
  rfl

/-- Claim C4 (confirmed): dispatching a documented class with a single
undocumented method `mname` raises `NoDocstring` whose problem string is
the method's full dotted path `<parent>.<class>.<mname>` (first conjunct,
for any non-underscore `mname ≠ '__init__'` — the partially built class
section is left behind, see claim C10); dispatching the same class whose
only member is an undocumented `__init__` raises nothing and returns the
class section with empty `subs`: the constructor is omitted. -/
theorem C4_undocumented_members (fuel : Nat) (p : Sect)
    (n d sig mname : String) (h1 : strHeadIs '_' mname = false)
    (h2 : mname ≠ "__init__") :
    parse_object (fuel + 5) p n
        (.cls (some d) false [] none [(mname, .func none sig)]) =
      (p.appendSub
        (.mk (some p.fullname) n
          (.cls (some d) false [] none [(mname, .func none sig)])
          (some ("class " ++ n)) (some (cleandoc d)) [] none),
       .raised ⟨p.fullname ++ "." ++ n ++ "." ++ mname⟩) ∧
    parse_object (fuel + 5) p n
        (.cls (some d) false [] none [("__init__", .func none sig)]) =
      (p.appendSub
        (.mk (some p.fullname) n
          (.cls (some d) false [] none [("__init__", .func none sig)])
          (some ("class " ++ n)) (some (cleandoc d)) [] none),
       .handled) := by
  constructor
  · show parseGo _ _ = _
    simp only [parseGo, tryNext, parse_enum, parse_property, parse_function,
      classMemberNames, lookupMem, if_pos rfl, h1, h2, displayName,
      classBases, List.filterMap, List.filter, Sect.fullname, Sect.value,
      PyValue.isTypeVal, List.insertionSort, List.orderedInsert,
      Sect.appendSub, noDocstringOf, if_neg h2]
    simp [tryNext, intercalate_dot_two, Sect.location, Sect.name,
      String.append_assoc]
  · show parseGo _ _ = _
    simp only [parseGo, tryNext, parse_enum, parse_property, parse_function,
      classMemberNames, lookupMem, displayName, classBases,
      List.filterMap, List.filter, Sect.fullname, Sect.value,
      PyValue.isTypeVal, List.insertionSort, List.orderedInsert,
      Sect.appendSub, noDocstringOf]
    simp [tryNext, Sect.location, Sect.name]

theorem C4_undocumented_members_witness :
    parse_object 9 sectM "C"
        (.cls (some "Doc.") false [] none [("run", .func none "()")]) =
      (sectM.appendSub
        (.mk (some "m") "C"
          (.cls (some "Doc.") false [] none [("run", .func none "()")])
          (some "class C") (some "Doc.") [] none),
       .raised ⟨"m.C.run"⟩) := by
  have h := (C4_undocumented_members 4 sectM "C" "Doc." "()" "run"
    (by decide) (by decide)).1
  simpa using h

/-! ## Claim C10: parent state when a handler raises -/

/-- Claim C10 (confirmed).  Parts 1-3: whenever the function, property or
enumeration handler raises `NoDocstring`, the parent section it returns is
exactly the parent it was given — the check precedes the construction and
append of the child section.  Part 4: whenever the class handler raises on
a documented class (`doc = some d` — with a docstring, the only raise left
comes from the member loop), the returned parent is the given parent with
one extra final sub, the partially built class section. -/
theorem C10_raise_leaves_parent_state :
    (∀ (p : Sect) (n : String) (v : PyValue) (p2 : Sect) (e : NoDocstring),
      parse_function p n v = (p2, .raised e) → p2 = p) ∧
    (∀ (p : Sect) (n : String) (v : PyValue) (p2 : Sect) (e : NoDocstring),
      parse_property p n v = (p2, .raised e) → p2 = p) ∧
    (∀ (p : Sect) (n : String) (v : PyValue) (p2 : Sect) (e : NoDocstring),
      parse_enum p n v = (p2, .raised e) → p2 = p) ∧
    (∀ (fuel : Nat) (p : Sect) (n d : String) (inh : Bool)
        (bases : List PyBase) (ball : Option (List String))
        (members : List (String × PyValue)) (p2 : Sect) (e : NoDocstring),
      parse_class fuel p n (.cls (some d) inh bases ball members) =
          (p2, .raised e) →
        ∃ cs, p2 = p.appendSub cs) := by
  refine ⟨?_, ?_, ?_, ?_⟩
  · intro p n v p2 e h
    cases v <;> simp [parse_function] at h
    case func doc sig =>
      cases doc with
      | none =>
        simp [parse_function] at h
        exact h.1.symm
      | some d => simp [parse_function] at h
  · intro p n v p2 e h
    cases v <;> simp [parse_property] at h
    case prop doc =>
      by_cases hp : p.value.isTypeVal = true
      · cases doc with
        | none =>
          simp [parse_property, hp] at h
          exact h.1.symm
        | some d => simp [parse_property, hp] at h
      · simp [parse_property, hp] at h
  · intro p n v p2 e h
    cases v <;> simp [parse_enum] at h
    case enumCls doc em =>
      cases doc with
      | none =>
        simp [parse_enum] at h
        exact h.1.symm
      | some d => simp [parse_enum] at h
  · intro fuel p n d inh bases ball members p2 e h
    match fuel with
    | 0 => exact absurd h (by simp [parse_class, parseGo])
    | f + 1 =>
      rw [show parse_class (f + 1) p n (.cls (some d) inh bases ball members)
          = ((p.appendSub
              (parseGo f (.pnames
                (.mk (some p.fullname) n (.cls (some d) inh bases ball members)
                  (some ("class " ++ displayName n (classBases p.fullname bases)))
                  (some (cleandoc d)) [] none)
                members (classMemberNames members ball))).1),
             (parseGo f (.pnames
                (.mk (some p.fullname) n (.cls (some d) inh bases ball members)
                  (some ("class " ++ displayName n (classBases p.fullname bases)))
                  (some (cleandoc d)) [] none)
                members (classMemberNames members ball))).2) from rfl] at h
      exact ⟨_, (Prod.mk.injEq _ _ _ _ ▸ h).1.symm⟩

theorem C10_raise_leaves_parent_state_witness :
    sectM = sectM ∧
      ∃ cs,
        sectM.appendSub
          (.mk (some "m") "C"
            (.cls (some "Doc.") false [] none [("run", .func none "()")])
            (some "class C") (some "Doc.") [] none) = sectM.appendSub cs := by
  constructor
  · exact C10_raise_leaves_parent_state.1 sectM "f" (.func none "()")
      sectM ⟨"m.f"⟩ rfl
  · exact C10_raise_leaves_parent_state.2.2.2 9 sectM "C" "Doc." false [] none
      [("run", .func none "()")] _ ⟨"m.C.run"⟩ rfl

/-! ## Claim C5: registry order, first-truthy-wins, exhaustion -/

/-- Claim C5 (confirmed).  First conjunct: dispatching over a registry
with a newly appended handler `h` tries `h` first (the registry is
iterated in reverse registration order), and `h`'s result — handled,
raised, or crashed — ends the search; only when `h` declines (returns a
falsy value) are the previously registered handlers consulted, on the
state `h` may have mutated.  So a later-registered handler that claims a
value fully shadows every earlier handler.  Second conjunct: if every
registered handler declines, the dispatch result is `none` — the
`assert False` at the end of `parse_object`, an internal fatal distinct
from every normal error value.  Third conjunct: `parse_object` with the
default registry is exactly this dispatch loop over
`reversed([parse_data, parse_function, parse_property, parse_class,
parse_enum])`. -/
theorem C5_dispatch_reverse_first_truthy :
    (∀ (registry : List Handler) (h : Handler) (p : Sect) (n : String)
        (v : PyValue),
      dispatchList (registry ++ [h]).reverse p n v =
        match h p n v with
        | (p1, .declined) => dispatchList registry.reverse p1 n v
        | (p1, r) => (p1, some r)) ∧
    (∀ (registry : List Handler) (p : Sect) (n : String) (v : PyValue),
      (∀ g ∈ registry, ∀ q : Sect, (g q n v).2 = .declined) →
      (dispatchList registry.reverse p n v).2 = none) ∧
    (∀ (fuel : Nat) (p : Sect) (n : String) (v : PyValue),
      dispatchList (defaultFuncs fuel).reverse p n v =
        ((parse_object (fuel + 1) p n v).1,
          some (parse_object (fuel + 1) p n v).2)) := by
  refine ⟨?_, ?_, ?_⟩
  · intro registry h p n v
    rw [List.reverse_append]
    show dispatchList (h :: registry.reverse) p n v = _
    rw [dispatchList]
  · intro registry p n v hall
    have : ∀ g ∈ registry.reverse, ∀ q : Sect, (g q n v).2 = .declined := by
      intro g hg q
      exact hall g (List.mem_reverse.mp hg) q
    revert this
    generalize registry.reverse = l
    intro hl
    induction l generalizing p with
    | nil => rfl
    | cons g rest ih =>
      rw [dispatchList]
      rcases hg : g p n v with ⟨p1, r⟩
      have := hl g (by simp) p
      rw [hg] at this
      simp at this
      subst this
      exact ih p1 (fun g2 hg2 q => hl g2 (by simp [hg2]) q)
  · intro fuel p n v
    show dispatchList
      [parse_enum, fun p n v => parseGo fuel (.pcls p n v), parse_property,
       parse_function, parse_data] p n v =
        ((parseGo (fuel + 1) (.pobj p n v)).1,
          some (parseGo (fuel + 1) (.pobj p n v)).2)
    rw [parseGo]
    rcases h1 : parse_enum p n v with ⟨p1, r1⟩
    simp only [dispatchList, tryNext, h1]
    cases r1 <;> try rfl
    rcases h2 : parseGo fuel (.pcls p1 n v) with ⟨p2, r2⟩
    simp only [dispatchList, tryNext, h2]
    cases r2 <;> try rfl
    rcases h3 : parse_property p2 n v with ⟨p3, r3⟩
    simp only [dispatchList, tryNext, h3]
    cases r3 <;> try rfl
    rcases h4 : parse_function p3 n v with ⟨p4, r4⟩
    simp only [dispatchList, tryNext, h4]
    cases r4 <;> rfl

theorem C5_dispatch_reverse_first_truthy_witness :
    (dispatchList [parse_enum].reverse sectM "x" (.other "1")).2 = none ∧
      dispatchList ([parse_enum] ++ [parse_function]).reverse sectM "x"
          (.other "1") =
        match parse_function sectM "x" (.other "1") with
        | (p1, .declined) => dispatchList [parse_enum].reverse p1 "x" (.other "1")
        | (p1, r) => (p1, some r) := by
  constructor
  · exact C5_dispatch_reverse_first_truthy.2.1 [parse_enum] sectM "x"
      (.other "1") (fun g hg q => by
        rcases List.mem_singleton.mp hg with rfl; rfl)
  · exact C5_dispatch_reverse_first_truthy.1 [parse_enum] parse_function sectM
      "x" (.other "1")

/-! ## Claim C7: `Section.dump` -/

/-- The text `dump` emits for a pre-order listing of (heading level, title,
content) triples: `'#' * level`, a space, the title, a blank line, the
content stripped of leading/trailing newlines, a blank line. -/
def renderEntries : List (Nat × String × String) → String
  | [] => ""
  | e :: rest =>
    hashMarks e.1 ++ " " ++ e.2.1 ++ "\n\n" ++ stripNl e.2.2 ++ "\n\n"
      ++ renderEntries rest

theorem renderEntries_append (l1 l2 : List (Nat × String × String)) :
    renderEntries (l1 ++ l2) = renderEntries l1 ++ renderEntries l2 := by
  induction l1 with
  | nil => simp [renderEntries]
  | cons e rest ih => simp [renderEntries, ih, String.append_assoc]

mutual
theorem dump_titled_sect : ∀ (s : Sect) (lvl : Nat), SectTitled s →
    dumpSect s lvl = (renderEntries (preorder s lvl), false)
  | .mk loc nm v t c subs d, lvl, ht => by
    obtain ⟨ht1, hc1, hsubs⟩ := ht
    obtain ⟨tt, rfl⟩ := Option.isSome_iff_exists.mp ht1
    obtain ⟨cc, rfl⟩ := Option.isSome_iff_exists.mp hc1
    have hlist := dump_titled_list subs (lvl + 1) hsubs
    simp [dumpSect, preorder, renderEntries, hlist, String.append_assoc]
theorem dump_titled_list : ∀ (l : List Sect) (lvl : Nat), SectsTitled l →
    dumpList l lvl = (renderEntries (preorderList l lvl), false)
  | [], _, _ => rfl
  | s :: rest, lvl, hst => by
    obtain ⟨hs, hrest⟩ := hst
    have h1 := dump_titled_sect s lvl hs
    have h2 := dump_titled_list rest lvl hrest
    simp [dumpList, preorderList, h1, h2, renderEntries_append]
end

/-- Claim C7 (confirmed).  First conjunct: `dump` fails through its
assertions — writing nothing — whenever the section's `title` or `content`
is unset.  Second conjunct: on a fully titled tree `dump` succeeds and its
output is exactly the concatenation, over the depth-first pre-order
listing of the tree, of a heading line of `title_level + depth` `'#'`
marks and the title, a blank line, the content with leading and trailing
newlines stripped, and a blank line — each child rendered in `subs` order
one level deeper, so Markdown heading depth equals tree depth. -/
theorem C7_dump_format (s : Sect) (lvl : Nat) :
    ((s.title = none ∨ s.content = none) → dumpSect s lvl = ("", true)) ∧
    (SectTitled s → dumpSect s lvl = (renderEntries (preorder s lvl), false)) := by
  constructor
  · intro h
    rcases s with ⟨loc, nm, v, t, c, subs, d⟩
    simp only [Sect.title, Sect.content] at h
    rcases h with h | h
    · subst h; cases c <;> rfl
    · subst h; cases t <;> rfl
  · exact dump_titled_sect s lvl

theorem C7_dump_format_witness :
    dumpSect (.mk none "m" .moduleRef (some "T") (some "\nbody\n")
        [.mk (some "m") "f" (.func (some "d") "()") (some "f()") (some "d")
          [] none] none) 1 =
      (renderEntries (preorder (.mk none "m" .moduleRef (some "T")
        (some "\nbody\n")
        [.mk (some "m") "f" (.func (some "d") "()") (some "f()") (some "d")
          [] none] none) 1), false) ∧
    dumpSect (.mk none "m" .moduleRef none (some "x") [] none) 3 = ("", true) := by
  constructor
  · exact (C7_dump_format _ 1).2 ⟨rfl, rfl, ⟨rfl, rfl, trivial⟩, trivial⟩
  · exact (C7_dump_format _ 3).1 (Or.inl rfl)

/-! ## Claim C6: the member-name list of `parse_module` -/

theorem charsLt_asymm :
    ∀ a b : List Char, charsLt a b = true → charsLt b a = false := by
  intro a
  induction a with
  | nil =>
    intro b h
    cases b with
    | nil => simp [charsLt] at h
    | cons d ds => rfl
  | cons c cs ih =>
    intro b h
    cases b with
    | nil => simp [charsLt] at h
    | cons d ds =>
      rcases lt_trichotomy c.toNat d.toNat with hlt | heq | hgt
      · simp [charsLt, hlt, not_lt_of_lt hlt, lt_asymm hlt]
      · simp [charsLt, heq, lt_irrefl] at h ⊢
        exact ih ds h
      · simp [charsLt, hgt, not_lt_of_lt hgt, lt_asymm hgt] at h
theorem charsLt_trans :
    ∀ a b c : List Char, charsLt a b = true → charsLt b c = true →
      charsLt a c = true := by
  intro a
  induction a with
  | nil =>
    intro b c hab hbc
    cases c with
    | nil =>
      cases b with
      | nil => simp [charsLt] at hab
      | cons d ds => simp [charsLt] at hbc
    | cons e es => rfl
  | cons x xs ih =>
    intro b c hab hbc
    cases b with
    | nil => simp [charsLt] at hab
    | cons y ys =>
      cases c with
      | nil => simp [charsLt] at hbc
      | cons z zs =>
        by_cases h1 : x.toNat < y.toNat
        · by_cases h2 : y.toNat < z.toNat
          · simp [charsLt, lt_trans h1 h2]
          · by_cases h3 : z.toNat < y.toNat
            · simp [charsLt, h2, h3] at hbc
            · have hlt : x.toNat < z.toNat := by omega
              simp [charsLt, hlt]
        · by_cases h3 : y.toNat < x.toNat
          · simp [charsLt, h1, h3] at hab
          · by_cases h2 : y.toNat < z.toNat
            · have hlt : x.toNat < z.toNat := by omega
              simp [charsLt, hlt]
            · by_cases h4 : z.toNat < y.toNat
              · simp [charsLt, h2, h4] at hbc
              · simp [charsLt, h1, h3] at hab
                simp [charsLt, h2, h4] at hbc
                have hxz1 : ¬ x.toNat < z.toNat := by omega
                have hxz2 : ¬ z.toNat < x.toNat := by omega
                simp [charsLt, hxz1, hxz2, ih ys zs hab hbc]

theorem charsLt_eq_of_both_false :
    ∀ a b : List Char, charsLt a b = false → charsLt b a = false → a = b := by
  intro a
  induction a with
  | nil =>
    intro b hab _
    cases b with
    | nil => rfl
    | cons d ds => simp [charsLt] at hab
  | cons c cs ih =>
    intro b hab hba
    cases b with
    | nil => simp [charsLt] at hba
    | cons d ds =>
      rcases lt_trichotomy c.toNat d.toNat with h1 | h1 | h1
      · simp [charsLt, h1] at hab
      · have hc : c = d := Char.ext (UInt32.ext h1)
        subst hc
        simp [charsLt, lt_irrefl] at hab hba
        rw [ih ds hab hba]
      · simp [charsLt, h1, not_lt_of_lt h1, lt_asymm h1] at hba

theorem pyStrLe_total (a b : String) :
    pyStrLe a b = true ∨ pyStrLe b a = true := by
  unfold pyStrLe
  by_cases h : charsLt b.data a.data = true
  · right
    simp [charsLt_asymm _ _ h]
  · left
    simp [Bool.not_eq_true] at h
    simp [h]

theorem pyStrLe_trans (a b c : String) (hab : pyStrLe a b = true)
    (hbc : pyStrLe b c = true) : pyStrLe a c = true := by
  unfold pyStrLe at *
  simp [Bool.not_eq_true] at hab hbc ⊢
  by_contra hca
  simp [Bool.not_eq_false] at hca
  by_cases hbc2 : charsLt b.data c.data = true
  · have := charsLt_trans _ _ _ hbc2 hca
    simp [this] at hab
  · simp [Bool.not_eq_true] at hbc2
    have := charsLt_eq_of_both_false _ _ hbc2 hbc
    rw [← this] at hca
    simp [hca] at hab

theorem keyLeB_total (k1 k2 : Nat × String) :
    keyLeB k1 k2 = true ∨ keyLeB k2 k1 = true := by
  unfold keyLeB
  rcases lt_trichotomy k1.1 k2.1 with h | h | h
  · left; simp [Nat.blt_eq, h]
  · rcases pyStrLe_total k1.2 k2.2 with hs | hs
    · left; simp [Nat.blt_eq, h, hs]
    · right; simp [Nat.blt_eq, h, hs]
  · right; simp [Nat.blt_eq, h]

theorem keyLeB_trans (k1 k2 k3 : Nat × String) (h12 : keyLeB k1 k2 = true)
    (h23 : keyLeB k2 k3 = true) : keyLeB k1 k3 = true := by
  unfold keyLeB at *
  simp [Nat.blt_eq] at h12 h23 ⊢
  rcases h12 with h12 | ⟨h12, hs12⟩ <;> rcases h23 with h23 | ⟨h23, hs23⟩
  · exact Or.inl (lt_trans h12 h23)
  · exact Or.inl (h23 ▸ h12)
  · exact Or.inl (h12 ▸ h23)
  · exact Or.inr ⟨h12.trans h23, pyStrLe_trans _ _ _ hs12 hs23⟩

theorem msk_snd (ns : List (String × PyValue)) (a : String) :
    (_module_sorting_key ns a).2 = a := by
  unfold _module_sorting_key
  cases lookupMem ns a with
  | none => rfl
  | some v =>
    by_cases h : v.isTypeVal = true <;>
      by_cases h2 : v.isExcClass = true <;>
        cases v <;> simp_all [PyValue.isTypeVal, PyValue.isExcClass]

theorem keyLeB_iff (k1 k2 : Nat × String) :
    keyLeB k1 k2 = true ↔
      (k1.1 < k2.1 ∨ (k1.1 = k2.1 ∧ pyStrLe k1.2 k2.2 = true)) := by
  unfold keyLeB
  simp [Nat.blt_eq]


theorem keys_replace (attrs : List (String × PyValue)) (n : String)
    (v : PyValue) :
    (attrs.map (fun p => if p.1 = n then (n, v) else p)).map Prod.fst =
      attrs.map Prod.fst := by
  induction attrs with
  | nil => rfl
  | cons p rest ih =>
    by_cases h : p.1 = n <;> simp [h, ih]

theorem keys_setAttr_self (attrs : List (String × PyValue)) (n : String)
    (v : PyValue) : n ∈ (setAttr attrs n v).map Prod.fst := by
  unfold setAttr
  by_cases h : (attrs.map Prod.fst).contains n
  · rw [if_pos h, keys_replace]
    simpa using h
  · rw [if_neg h]
    simp

theorem keys_setAttr_mono (attrs : List (String × PyValue)) (n s : String)
    (v : PyValue) (hs : s ∈ attrs.map Prod.fst) :
    s ∈ (setAttr attrs n v).map Prod.fst := by
  unfold setAttr
  by_cases h : (attrs.map Prod.fst).contains n
  · rw [if_pos h, keys_replace]; exact hs
  · rw [if_neg h]; simp [hs]

theorem keys_foldl_preserve (names : List String)
    (attrs : List (String × PyValue)) (s : String)
    (hs : s ∈ attrs.map Prod.fst) :
    s ∈ (names.foldl (fun a n => setAttr a n PyValue.moduleRef) attrs).map
      Prod.fst := by
  induction names generalizing attrs with
  | nil => exact hs
  | cons n rest ih => exact ih _ (keys_setAttr_mono _ _ _ _ hs)

theorem keys_foldl_setAttr (names : List String)
    (attrs : List (String × PyValue)) (s : String) (hs : s ∈ names) :
    s ∈ (names.foldl (fun a n => setAttr a n PyValue.moduleRef) attrs).map
      Prod.fst := by
  induction names generalizing attrs with
  | nil => simp at hs
  | cons n rest ih =>
    rcases List.mem_cons.mp hs with rfl | hs2
    · exact keys_foldl_preserve rest (setAttr attrs s PyValue.moduleRef) s
        (keys_setAttr_self attrs s PyValue.moduleRef)
    · exact ih _ hs2

theorem siblingNames_spec (m : PyModule) (s : String)
    (hs : s ∈ siblingNames m) :
    s ∈ siblingNames m ∧ strHeadIs '_' s = false := by
  refine ⟨hs, ?_⟩
  unfold siblingNames at hs
  obtain ⟨f, _, hf⟩ := List.mem_filterMap.mp hs
  by_cases hcond : ((splitExt f.data).2 = ".py".data &&
      pyIsIdentifier ⟨(splitExt f.data).1⟩ &&
      !(strHeadIs '_' ⟨(splitExt f.data).1⟩)) = true
  · rw [if_pos hcond] at hf
    have hseq : (⟨(splitExt f.data).1⟩ : String) = s := Option.some.inj hf
    simp only [Bool.and_eq_true] at hcond
    rw [← hseq]
    simpa using hcond.2
  · rw [if_neg hcond] at hf
    exact absurd hf (by simp)

/-- Claim C6 (confirmed).  First conjunct: a module-declared `__all__`
list is used verbatim, order preserved.  Second conjunct: without
`__all__` the computed list is a permutation of the non-underscore-prefixed
`dir()` names of the module namespace — which for a package has first had
every public sibling source file imported into it (`moduleNamespace`) —
and it is sorted by the classification key: bucket 1 = classes, 2 =
functions, 3 = exception classes, 4 = other data (`_module_sorting_key`),
lower buckets first and names in (code-point) alphabetical order inside a
bucket.  Third conjunct: for a package without `__all__` every public
sibling source file's module name appears in the computed list. -/
theorem C6_member_name_order :
    (∀ (m : PyModule) (l : List String), m.allList = some l →
      computeAllList m = l) ∧
    (∀ m : PyModule, m.allList = none →
      (computeAllList m).Perm
        ((pyDir (moduleNamespace m)).filter (fun n => !(strHeadIs '_' n))) ∧
      (computeAllList m).Sorted (fun a b =>
        (_module_sorting_key (moduleNamespace m) a).1 <
            (_module_sorting_key (moduleNamespace m) b).1 ∨
          ((_module_sorting_key (moduleNamespace m) a).1 =
              (_module_sorting_key (moduleNamespace m) b).1 ∧
            pyStrLe a b = true))) ∧
    (∀ (m : PyModule) (s : String), m.allList = none → m.isPackage = true →
      s ∈ siblingNames m → s ∈ computeAllList m) := by
  refine ⟨?_, ?_, ?_⟩
  · intro m l h
    simp [computeAllList, h]
  · intro m h
    have hrw : computeAllList m =
        List.insertionSort
          (fun a b =>
            keyLeB (_module_sorting_key (moduleNamespace m) a)
              (_module_sorting_key (moduleNamespace m) b) = true)
          ((pyDir (moduleNamespace m)).filter (fun n => !(strHeadIs '_' n))) := by
      simp [computeAllList, h]
    constructor
    · rw [hrw]
      exact List.perm_insertionSort _ _
    · rw [hrw]
      haveI : IsTotal String (fun a b =>
          keyLeB (_module_sorting_key (moduleNamespace m) a)
            (_module_sorting_key (moduleNamespace m) b) = true) :=
        ⟨fun a b => keyLeB_total _ _⟩
      haveI : IsTrans String (fun a b =>
          keyLeB (_module_sorting_key (moduleNamespace m) a)
            (_module_sorting_key (moduleNamespace m) b) = true) :=
        ⟨fun a b c => keyLeB_trans _ _ _⟩
      have hs := List.sorted_insertionSort
        (fun a b =>
          keyLeB (_module_sorting_key (moduleNamespace m) a)
            (_module_sorting_key (moduleNamespace m) b) = true)
        ((pyDir (moduleNamespace m)).filter (fun n => !(strHeadIs '_' n)))
      refine hs.imp ?_
      intro a b hab
      have := (keyLeB_iff _ _).mp hab
      rwa [msk_snd, msk_snd] at this
  · intro m s hall hpkg hmem
    obtain ⟨hsa, hhead⟩ := siblingNames_spec m s hmem
    have hkey : s ∈ (moduleNamespace m).map Prod.fst := by
      rw [show moduleNamespace m =
          (siblingNames m).foldl (fun a n => setAttr a n .moduleRef) m.attrs by
        simp [moduleNamespace, hall, hpkg]]
      exact keys_foldl_setAttr _ _ _ hmem
    have hdir : s ∈ pyDir (moduleNamespace m) := by
      unfold pyDir
      rw [(List.perm_insertionSort _ _).mem_iff]
      exact List.mem_dedup.mpr hkey
    have hfil : s ∈ (pyDir (moduleNamespace m)).filter
        (fun n => !(strHeadIs '_' n)) :=
      List.mem_filter.mpr ⟨hdir, by simp [hhead]⟩
    rw [show computeAllList m =
        List.insertionSort
          (fun a b =>
            keyLeB (_module_sorting_key (moduleNamespace m) a)
              (_module_sorting_key (moduleNamespace m) b) = true)
          ((pyDir (moduleNamespace m)).filter (fun n => !(strHeadIs '_' n)))
      by simp [computeAllList, hall]]
    rw [(List.perm_insertionSort _ _).mem_iff]
    exact hfil

theorem C6_member_name_order_witness :
    computeAllList ⟨some "Doc.", false, some ["b", "a"], [], [], []⟩ =
        ["b", "a"] ∧
      "util" ∈ computeAllList ⟨some "D.", true, none, [], ["util.py"], []⟩ := by
  constructor
  · exact C6_member_name_order.1 _ _ rfl
  · exact C6_member_name_order.2.2 _ "util" rfl rfl (by decide)

/-! ## Claim C9: every returned section is titled -/

theorem sectsTitled_append :
    ∀ l1 l2 : List Sect, SectsTitled l1 → SectsTitled l2 →
      SectsTitled (l1 ++ l2) := by
  intro l1
  induction l1 with
  | nil => intro l2 _ h2; exact h2
  | cons s rest ih =>
    intro l2 h1 h2
    obtain ⟨hs, hrest⟩ := h1
    exact ⟨hs, ih l2 hrest h2⟩

theorem sectTitled_appendSub (p c : Sect) (hp : SectTitled p)
    (hc : SectTitled c) : SectTitled (p.appendSub c) := by
  rcases p with ⟨loc, nm, v, t, ct, subs, d⟩
  obtain ⟨h1, h2, h3⟩ := hp
  exact ⟨h1, h2, sectsTitled_append subs [c] h3 ⟨hc, trivial⟩⟩

theorem sectTitled_recordData (p : Sect) (n : String) (v : PyValue)
    (hp : SectTitled p) : SectTitled (p.recordData n v) := by
  rcases p with ⟨loc, nm, vv, t, ct, subs, d⟩
  exact hp

theorem parse_enum_titled (p : Sect) (n : String) (v : PyValue)
    (hp : SectTitled p) : SectTitled (parse_enum p n v).1 := by
  cases v <;> try exact hp
  case enumCls doc em =>
    cases doc with
    | none => exact hp
    | some d => exact sectTitled_appendSub _ _ hp ⟨rfl, rfl, trivial⟩

theorem parse_property_titled (p : Sect) (n : String) (v : PyValue)
    (hp : SectTitled p) : SectTitled (parse_property p n v).1 := by
  cases v <;> try exact hp
  case prop doc =>
    unfold parse_property
    by_cases ht : p.value.isTypeVal
    · cases doc with
      | none => simpa [ht] using hp
      | some d =>
        simp only [ht, Bool.not_true, if_false]
        exact sectTitled_appendSub _ _ hp ⟨rfl, rfl, trivial⟩
    · simp only [Bool.not_eq_true] at ht
      simpa [ht] using hp

theorem parse_function_titled (p : Sect) (n : String) (v : PyValue)
    (hp : SectTitled p) : SectTitled (parse_function p n v).1 := by
  cases v <;> try exact hp
  case func doc sig =>
    cases doc with
    | none => exact hp
    | some d => exact sectTitled_appendSub _ _ hp ⟨rfl, rfl, trivial⟩

theorem parse_data_titled (p : Sect) (n : String) (v : PyValue)
    (hp : SectTitled p) : SectTitled (parse_data p n v).1 :=
  sectTitled_recordData p n v hp

theorem tryNext_titled (r : Sect × HRes) (k : Sect → Sect × HRes)
    (hr : SectTitled r.1) (hk : ∀ q : Sect, SectTitled q → SectTitled (k q).1) :
    SectTitled (tryNext r k).1 := by
  rcases r with ⟨p1, r1⟩
  cases r1 <;> first | exact hr | exact hk p1 hr

theorem parseGo_titled :
    ∀ (fuel : Nat) (c : PCall), SectTitled c.stateOf →
      SectTitled (parseGo fuel c).1 := by
  intro fuel
  induction fuel with
  | zero => intro c hc; exact hc
  | succ f ih =>
    intro c hc
    match c with
    | .pobj p n v =>
      have hp : SectTitled p := hc
      rw [parseGo]
      exact tryNext_titled _ _ (parse_enum_titled p n v hp) (fun p1 hp1 =>
        tryNext_titled _ _ (ih (.pcls p1 n v) hp1) (fun p2 hp2 =>
          tryNext_titled _ _ (parse_property_titled p2 n v hp2) (fun p3 hp3 =>
            tryNext_titled _ _ (parse_function_titled p3 n v hp3)
              (fun p4 hp4 => parse_data_titled p4 n v hp4))))
    | .pcls p cn v =>
      have hp : SectTitled p := hc
      cases v with
      | cls doc inh bases ball members =>
        cases doc with
        | none => exact hp
        | some d =>
          exact sectTitled_appendSub _ _ hp
            (ih (.pnames
              (.mk (some p.fullname) cn
                (.cls (some d) inh bases ball members)
                (some ("class " ++ displayName cn (classBases p.fullname bases)))
                (some (cleandoc d)) [] none)
              members (classMemberNames members ball)) ⟨rfl, rfl, trivial⟩)
      | func doc sig => exact hp
      | prop doc => exact hp
      | cmeth => exact hp
      | smeth => exact hp
      | enumCls doc em => exact hp
      | moduleRef => exact hp
      | other r => exact hp
    | .pnames cs members names =>
      have hcs : SectTitled cs := hc
      cases names with
      | nil => exact hcs
      | cons name rest =>
        rw [show parseGo (f + 1) (.pnames cs members (name :: rest)) =
            (match lookupMem members name with
             | none => (cs, .crashed)
             | some v =>
               match parseGo f (.pobj cs name v) with
               | (cs2, .handled) => parseGo f (.pnames cs2 members rest)
               | (cs2, .raised e) =>
                 if name = "__init__" then parseGo f (.pnames cs2 members rest)
                 else (cs2, .raised e)
               | (cs2, r) => (cs2, r)) from rfl]
        split
        · exact hcs
        · rename_i v hlk
          have hstep : ∀ (cs2 : Sect) (r2 : HRes),
              parseGo f (.pobj cs name v) = (cs2, r2) → SectTitled cs2 := by
            intro cs2 r2 heq
            have := ih (.pobj cs name v) hcs
            rwa [heq] at this
          split
          · rename_i cs2 heq
            exact ih (.pnames cs2 members rest) (hstep cs2 _ heq)
          · rename_i cs2 e heq
            by_cases hini : name = "__init__"
            · rw [if_pos hini]
              exact ih (.pnames cs2 members rest) (hstep cs2 _ heq)
            · rw [if_neg hini]
              exact hstep cs2 _ heq
          · rename_i cs2 r2 hno1 hno2 heq
            exact hstep cs2 r2 heq

theorem processNames_titled (fuel : Nat) (m : PyModule) (modulename : String) :
    ∀ (names : List String) (sect : Sect) (submods sm2 : List String)
      (s2 : Sect),
      SectTitled sect →
      processNames fuel m modulename sect submods names = .ok (s2, sm2) →
      SectTitled s2 := by
  intro names
  induction names with
  | nil =>
    intro sect submods sm2 s2 hs h
    rw [show processNames fuel m modulename sect submods [] =
        .ok (sect, submods) from rfl] at h
    obtain ⟨rfl, rfl⟩ := Prod.mk.inj (Except.ok.inj h)
    exact hs
  | cons name rest ih =>
    intro sect submods sm2 s2 hs h
    rw [processNames] at h
    by_cases hpkg : m.isPackage && m.importableSubs.contains name
    · rw [if_pos hpkg] at h
      exact ih _ _ _ _ hs h
    · rw [if_neg hpkg] at h
      cases hlk : lookupMem (moduleNamespace m) name with
      | none => rw [hlk] at h; cases h
      | some v =>
        simp only [hlk] at h
        rcases hpo : parse_object fuel sect name v with ⟨sgo, rgo⟩
        have hsgo : SectTitled sgo := by
          have := parseGo_titled fuel (.pobj sect name v) hs
          rwa [show parseGo fuel (.pobj sect name v) = (sgo, rgo) from hpo]
            at this
        simp only [hpo] at h
        cases rgo <;> try cases h
        exact ih _ _ _ _ hsgo h

def heapTitled (h : Heap) : Prop :=
  ∀ nd ∈ h, nd.title.isSome ∧ nd.content.isSome

theorem heapTitled_append (h : Heap) (nd : Node) (hh : heapTitled h)
    (hnd : nd.title.isSome ∧ nd.content.isSome) : heapTitled (h ++ [nd]) := by
  intro x hx
  rcases List.mem_append.mp hx with hx | hx
  · exact hh x hx
  · rcases List.mem_singleton.mp hx with rfl
    exact hnd

mutual
theorem flatSect_titled : ∀ (s : Sect) (h : Heap), SectTitled s →
    heapTitled h → heapTitled (flatSect s h).1
  | .mk loc nm v t c subs d, h, hs, hh => by
    obtain ⟨h1, h2, h3⟩ := hs
    have hc := flatList_titled subs h h3 hh
    cases d with
    | none => exact heapTitled_append _ _ hc ⟨h1, h2⟩
    | some data =>
      exact heapTitled_append _ _ (heapTitled_append _ _ hc ⟨rfl, rfl⟩) ⟨h1, h2⟩
theorem flatList_titled : ∀ (l : List Sect) (h : Heap), SectsTitled l →
    heapTitled h → heapTitled (flatList l h).1
  | [], h, _, hh => hh
  | s :: rest, h, hl, hh => by
    obtain ⟨hs, hrest⟩ := hl
    exact flatList_titled rest _ hrest (flatSect_titled s h hs hh)
end

theorem appendChildAt_titled :
    ∀ (h : Heap) (i d : Nat), heapTitled h → heapTitled (appendChildAt h i d) := by
  intro h
  induction h with
  | nil => intro i d hh; exact hh
  | cons nd rest ih =>
    intro i d hh
    have hnd := hh nd (by simp)
    have hrest : heapTitled rest := fun x hx => hh x (by simp [hx])
    cases i with
    | zero =>
      intro x hx
      rcases List.mem_cons.mp hx with rfl | hx
      · exact hnd
      · exact hrest x hx
    | succ j =>
      intro x hx
      rcases List.mem_cons.mp hx with rfl | hx
      · exact hnd
      · exact ih j d hrest x hx

theorem hookRun_titled :
    ∀ (fuel : Nat) (dsec : Option Nat) (h : Heap) (stack : List (Nat × Nat))
      (h2 : Heap), heapTitled h → hookRun dsec fuel h stack = .inr h2 →
      heapTitled h2 := by
  intro fuel
  induction fuel with
  | zero => intro dsec h stack h2 _ hr; cases hr
  | succ f ih =>
    intro dsec h stack h2 hh hr
    cases stack with
    | nil =>
      rw [show hookRun dsec (f + 1) h [] = .inr h from rfl] at hr
      rcases Sum.inr.inj hr with rfl
      exact hh
    | cons fr rest =>
      rcases fr with ⟨sid, i⟩
      rw [hookRun] at hr
      by_cases hlt : i < (getNode h sid).subs.length
      · rw [dif_pos hlt] at hr
        cases dsec with
        | none => exact ih none _ _ _ hh hr
        | some d => exact ih (some d) _ _ _ (appendChildAt_titled _ _ _ hh) hr
      · rw [dif_neg hlt] at hr
        exact ih dsec _ _ _ hh hr

/-- Claim C9 (confirmed): whenever `parse_module` returns successfully,
every section on the returned heap — the root, every handler-built
subsection, and every `DataSection` — has a set (non-`None`) `title` and
`content`, so neither of `dump`'s two assertions (`Section.dump`, lines
131-132, embedded as the `("", true)` branch of `dumpSect`) can ever fire
on a tree `parse_module` returned. -/
theorem C9_returned_sections_all_titled (fuel : Nat) (modulename : String)
    (m : PyModule) (out : PMOut)
    (h : parse_module fuel modulename m = .ok out) :
    ∀ nd ∈ out.heap, nd.title.isSome ∧ nd.content.isSome := by
  unfold parse_module at h
  rcases hdoc : m.doc with _ | mdoc
  · rw [hdoc] at h; cases h
  · rw [hdoc] at h
    simp only at h
    rcases hT : moduleTitle modulename mdoc with e | title
    · simp only [hT] at h; cases h
    · simp only [hT] at h
      rcases hP : processNames fuel m modulename
          (.mk none modulename .moduleRef (some title)
            (some (pyPartition (cleandoc mdoc) '\n').2.2) [] none)
          [] (computeAllList m) with e | sp
      · simp only [hP] at h; cases h
      · rcases sp with ⟨sect, submods⟩
        simp only [hP] at h
        rcases hH : hookRun (flatSect sect []).2.2 fuel (flatSect sect []).1
            [((flatSect sect []).2.1, 0)] with st | heap2
        · simp only [hH] at h; cases h
        · simp only [hH] at h
          obtain rfl := Except.ok.inj h
          have hsect : SectTitled sect :=
            processNames_titled fuel m modulename (computeAllList m)
              (.mk none modulename .moduleRef (some title)
                (some (pyPartition (cleandoc mdoc) '\n').2.2) [] none)
              [] submods sect ⟨rfl, rfl, trivial⟩ hP
          have hflat : heapTitled (flatSect sect []).1 :=
            flatSect_titled sect [] hsect
              (fun x hx => absurd hx (List.not_mem_nil x))
          exact hookRun_titled fuel _ _ _ _ hflat hH

theorem C9_returned_sections_all_titled_witness :
    (Option.some "Other data").isSome = true ∧
      (Option.some "```\nx = `1`\n```").isSome = true := by
  have h := C9_returned_sections_all_titled 5 "m" moduleC1
    ⟨[⟨some "Other data", some "```\nx = `1`\n```", []⟩,
      ⟨some "m - doc", some "", []⟩], 1, []⟩ rfl
  exact h ⟨some "Other data", some "```\nx = `1`\n```", []⟩ (by simp)
